import Mathlib

/-!
# Shallow embedding of the speedwashing audio engines

This file embeds the real-time audio worklets of the repository in Lean 4 and
proves (or refutes) the stated behavioural properties.

* `HybridBinaural` models the `HybridBinauralProcessor` audio worklet of
  `src/js/binaural2.js`: its mutable state, its `port.onmessage` handler and the
  per-sample body of its `process` loop.
* `Noise` models the `NoiseProcessor` audio worklet (white-noise companion
  generator).

Modelling conventions:

* JavaScript numbers are modelled as elements of an abstract linear ordered
  field `K` with a floor (instantiated at `ℚ` for executable statements and at
  `ℝ` where `Math.exp` / `Math.cos` / `Math.PI` matter).  Floating-point
  rounding is not modelled; arithmetic is exact.
* The transcendental host functions `Math.exp`, `Math.cos` and the constant
  `Math.PI` are passed as explicit parameters (`kexp`, `kcos`, `kpi`) so that
  the rest of the engine stays computable; theorems instantiate them with
  `Real.exp`, `Real.cos` and `π` when their actual values matter.
* The shared sine wavetable is passed as a function `table : ℤ → K`; the claims
  proved here concern index bounds and data flow, never the sine values
  themselves.
* The per-block smoothing coefficients (computed once per `process` call in the
  source) are parameters `fS` (fast frequency coefficient, line 140) and `sS`
  (slow mix/delay coefficient, line 142) of the per-sample step.
-/

namespace SpeedWashing

variable {K : Type} [LinearOrderedField K] [FloorRing K]

/-- JavaScript `x | 0` truncation toward zero (the 32-bit wrap is not modelled;
all phase values in play are far below `2^31`). -/
def jsTrunc (x : K) : ℤ :=
  if 0 ≤ x then ⌊x⌋ else -⌊-x⌋

/-- `this.tableSize = 4096` — the wavetable holds one sine period in
`tableSize + 1` entries (index `tableSize` duplicates index `0`). -/
def tableSize : ℕ := 4096

/-- One exponential-smoothing update:
`value += (target - value) * coef` (lines 146–153 of `binaural2.js`, line 33 of
the noise worklet). -/
def smoothStep (coef target value : K) : K :=
  value + (target - value) * coef

/-- `coef` applied `n` times to `value` with a constant `target`. -/
def smoothN (coef target : K) : ℕ → K → K
  | 0, v => v
  | n + 1, v => smoothN coef target n (smoothStep coef target v)

/-- Per-block fast smoothing coefficient
`1 - Math.exp(-5 / (sampleRate * Math.max(0.001, freqSmooth)))`
(line 140 of `binaural2.js`), with the host `Math.exp` abstracted as `kexp`. -/
def fSmoothCoef (kexp : K → K) (sampleRate freqSmooth : K) : K :=
  1 - kexp (-5 / (sampleRate * max (1 / 1000) freqSmooth))

/-- Per-block slow smoothing coefficient
`1 - Math.exp(-2 / (sampleRate * 0.1))` (line 142 of `binaural2.js`). -/
def slowSmoothCoef (kexp : K → K) (sampleRate : K) : K :=
  1 - kexp (-2 / (sampleRate * (1 / 10)))

/-- One step of the linear gain ramp (lines 156–162 of `binaural2.js`).
Input is the ramp progress counter; the result is the new progress counter and
the gain rendered for this sample:

    if (gainRampProgress < gainRampSamples) {
        gainRampProgress++;
        const t = gainRampProgress / gainRampSamples;
        gain = gainStart + (gainEnd - gainStart) * t;
    } else { gain = gainEnd; }
-/
def gainUpdate (gainStart gainEnd gainRampSamples progress : K) : K × K :=
  if progress < gainRampSamples then
    (progress + 1, gainStart + (gainEnd - gainStart) * ((progress + 1) / gainRampSamples))
  else
    (progress, gainEnd)

/-- Progress counter and rendered gain after `k` samples of a freshly started
ramp (a gain message sets `gainStart := gain`, `gainRampProgress := 0`; before
any sample the rendered gain is still the start value). -/
def gainAfter (gainStart gainEnd gainRampSamples : K) : ℕ → K × K
  | 0 => (0, gainStart)
  | k + 1 => gainUpdate gainStart gainEnd gainRampSamples
      (gainAfter gainStart gainEnd gainRampSamples k).1

/-- Interpolated wavetable lookup (lines 169–172 of `binaural2.js`):
`i = phase | 0; f = phase - i; s = table[i] + (table[i+1] - table[i]) * f`. -/
def tableLookup (table : ℤ → K) (phase : K) : K :=
  let i := jsTrunc phase
  let f := phase - (i : K)
  table i + (table (i + 1) - table i) * f

/-- Raised-cosine isochronic envelope
`0.5 * (1 + Math.cos(phase + Math.PI))` (line 127 of `binaural2.js`). -/
def isochronicEnvelope (kcos : K → K) (kpi phase : K) : K :=
  (1 / 2) * (1 + kcos (phase + kpi))

/-- Carrier phase advance with single wraparound subtraction
(lines 226–236 of `binaural2.js`): `phase += inc; if (phase >= N) phase -= N`. -/
def advancePhase (N phase inc : K) : K :=
  let p := phase + inc
  if N ≤ p then p - N else p

/-- Isochronic envelope phase advance (lines 240–245 of `binaural2.js`):
`isoPhase += 2π·beat/sampleRate; if (isoPhase >= 2π) isoPhase -= 2π`. -/
def advanceIsoPhase (kpi sampleRate phase beat : K) : K :=
  let p := phase + 2 * kpi * beat / sampleRate
  if 2 * kpi ≤ p then p - 2 * kpi else p

/-- Band mixing followed by the clipping guard (lines 198–206 of
`binaural2.js`), for one channel:

    mix = s1 + s2 * band2Mix;
    if (band2Enabled && band2Mix > 0) mix *= 1 / (1 + band2Mix);
-/
def mixNormalize (band2Enabled : Bool) (band2Mix s1 s2 : K) : K :=
  let mixed := s1 + s2 * band2Mix
  if band2Enabled ∧ 0 < band2Mix then mixed * (1 / (1 + band2Mix)) else mixed

/-- Right-channel delay stage (lines 209–219 of `binaural2.js`).  Takes the
ring buffer, write cursor, current smoothed delay length and the pre-delay
right sample; returns the updated buffer, updated write cursor and the
post-delay right sample.  The buffer is a total function `ℕ → K`; only indices
below `cap` are ever used under the claims' hypotheses. -/
def delayStage (cap : ℕ) (buf : ℕ → K) (writePos : ℕ) (delaySamples mixR : K) :
    (ℕ → K) × ℕ × K :=
  if 0 < delaySamples then
    let buf2 : ℕ → K := fun j => if j = writePos then mixR else buf j
    let dInt : ℤ := ⌊delaySamples⌋
    let r : ℤ := (writePos : ℤ) - dInt
    let r2 : ℤ := if r < 0 then r + (cap : ℤ) else r
    (buf2, (writePos + 1) % cap, buf2 r2.toNat)
  else
    (buf, writePos, mixR)

/-- The mutable fields of `HybridBinauralProcessor` (constructor, lines 36–88
of `binaural2.js`).  The immutable wavetable and the host sample rate are kept
outside the state (they are parameters of the step functions). -/
structure EngineState (K : Type) where
  phase1L : K
  phase1R : K
  freq1L : K
  freq1R : K
  targetFreq1L : K
  targetFreq1R : K
  phase2L : K
  phase2R : K
  freq2L : K
  freq2R : K
  targetFreq2L : K
  targetFreq2R : K
  band2Enabled : Bool
  band2Mix : K
  targetBand2Mix : K
  isoPhase1 : K
  isoPhase2 : K
  isoEnabled : Bool
  interleaveMs : K
  targetInterleaveMs : K
  delayBuf : ℕ → K
  delayCap : ℕ
  delayWritePos : ℕ
  delaySamples : K
  targetDelaySamples : K
  gain : K
  gainStart : K
  gainEnd : K
  gainRampSamples : K
  gainRampProgress : K
  freqSmooth : K

/-- Constructor defaults (lines 40–88 of `binaural2.js`); the delay buffer has
`Math.ceil(sampleRate * 0.2)` slots, initially all zero. -/
def initState (sampleRate : K) : EngineState K where
  phase1L := 0
  phase1R := 0
  freq1L := 310
  freq1R := 315
  targetFreq1L := 310
  targetFreq1R := 315
  phase2L := 0
  phase2R := 0
  freq2L := 60
  freq2R := 253 / 4
  targetFreq2L := 60
  targetFreq2R := 253 / 4
  band2Enabled := false
  band2Mix := 1 / 2
  targetBand2Mix := 1 / 2
  isoPhase1 := 0
  isoPhase2 := 0
  isoEnabled := false
  interleaveMs := 0
  targetInterleaveMs := 0
  delayBuf := fun _ => 0
  delayCap := (⌈sampleRate * (1 / 5)⌉).toNat
  delayWritePos := 0
  delaySamples := 0
  targetDelaySamples := 0
  gain := 0
  gainStart := 0
  gainEnd := 0
  gainRampSamples := 0
  gainRampProgress := 0
  freqSmooth := 1 / 100

/-- A `port.postMessage` record: every recognised field is optional
(`undefined` in JS ↦ `none`). -/
structure ParamMsg (K : Type) where
  freq1L : Option K := none
  freq1R : Option K := none
  freq2L : Option K := none
  freq2R : Option K := none
  band2Enabled : Option Bool := none
  band2Mix : Option K := none
  isoEnabled : Option Bool := none
  interleaveMs : Option K := none
  freqSmooth : Option K := none
  gain : Option K := none
  gainSmooth : Option K := none

/-- The `port.onmessage` handler (lines 90–122 of `binaural2.js`).  Each
`if (d.x !== undefined)` guard writes a distinct group of fields, so the
sequence of guarded assignments is rendered as one record update; a present
`gain` field captures `gainStart := this.gain`, clamps the target into `[0,1]`,
sets `gainRampSamples := (d.gainSmooth || 0.01) * sampleRate` (the JS `||`
replaces both an absent and a zero `gainSmooth` by `0.01`) and resets the ramp
progress; a present `interleaveMs` also sets
`targetDelaySamples := Math.floor(sampleRate * ms / 1000)`. -/
def applyMessage (sampleRate : K) (st : EngineState K) (d : ParamMsg K) :
    EngineState K :=
  { st with
    targetFreq1L := match d.freq1L with | some v => v | none => st.targetFreq1L
    targetFreq1R := match d.freq1R with | some v => v | none => st.targetFreq1R
    targetFreq2L := match d.freq2L with | some v => v | none => st.targetFreq2L
    targetFreq2R := match d.freq2R with | some v => v | none => st.targetFreq2R
    band2Enabled := match d.band2Enabled with | some b => b | none => st.band2Enabled
    targetBand2Mix := match d.band2Mix with | some v => v | none => st.targetBand2Mix
    isoEnabled := match d.isoEnabled with | some b => b | none => st.isoEnabled
    targetInterleaveMs := match d.interleaveMs with
      | some v => v
      | none => st.targetInterleaveMs
    targetDelaySamples := match d.interleaveMs with
      | some v => ((⌊sampleRate * v / 1000⌋ : ℤ) : K)
      | none => st.targetDelaySamples
    freqSmooth := match d.freqSmooth with | some v => v | none => st.freqSmooth
    gainStart := match d.gain with | some _ => st.gain | none => st.gainStart
    gainEnd := match d.gain with
      | some v => max 0 (min 1 v)
      | none => st.gainEnd
    gainRampSamples := match d.gain with
      | some _ =>
          (match d.gainSmooth with
            | some gs => if gs = 0 then 1 / 100 else gs
            | none => 1 / 100) * sampleRate
      | none => st.gainRampSamples
    gainRampProgress := match d.gain with | some _ => 0 | none => st.gainRampProgress }

/-- A message carrying only a gain target and its ramp duration. -/
def gainOnlyMsg (g gs : K) : ParamMsg K :=
  { gain := some g, gainSmooth := some gs }

/-- One iteration of the per-sample loop of `process` (lines 144–247 of
`binaural2.js`): smooth the four frequencies, the mix and the delay length,
step the gain ramp, render both bands with optional isochronic envelopes, mix
and normalize, run the right channel through the delay line, apply the gain,
and advance every active phase.  Returns the new state and the `(L, R)` output
sample pair.  `fS` and `sS` are the per-block smoothing coefficients, `table`
the shared wavetable, `kcos`/`kpi` the host cosine and π. -/
def processSample (sampleRate fS sS : K) (table : ℤ → K) (kcos : K → K)
    (kpi : K) (st : EngineState K) : EngineState K × K × K :=
  let scale := (tableSize : K) / sampleRate
  let freq1L := smoothStep fS st.targetFreq1L st.freq1L
  let freq1R := smoothStep fS st.targetFreq1R st.freq1R
  let freq2L := smoothStep fS st.targetFreq2L st.freq2L
  let freq2R := smoothStep fS st.targetFreq2R st.freq2R
  let band2Mix := smoothStep sS st.targetBand2Mix st.band2Mix
  let delaySamples := smoothStep sS st.targetDelaySamples st.delaySamples
  let gu := gainUpdate st.gainStart st.gainEnd st.gainRampSamples st.gainRampProgress
  let gain := gu.2
  let beat1 := freq1R - freq1L
  let beat2 := freq2R - freq2L
  let iso1 := isochronicEnvelope kcos kpi st.isoPhase1
  let iso2 := isochronicEnvelope kcos kpi st.isoPhase2
  let s1L := if st.isoEnabled then tableLookup table st.phase1L * iso1
             else tableLookup table st.phase1L
  let s1R := if st.isoEnabled then tableLookup table st.phase1R * iso1
             else tableLookup table st.phase1R
  let s2L := if st.band2Enabled then
               (if st.isoEnabled then tableLookup table st.phase2L * iso2
                else tableLookup table st.phase2L)
             else 0
  let s2R := if st.band2Enabled then
               (if st.isoEnabled then tableLookup table st.phase2R * iso2
                else tableLookup table st.phase2R)
             else 0
  let mixL := mixNormalize st.band2Enabled band2Mix s1L s2L
  let mixR0 := mixNormalize st.band2Enabled band2Mix s1R s2R
  let del := delayStage st.delayCap st.delayBuf st.delayWritePos delaySamples mixR0
  let outL := mixL * gain
  let outR := del.2.2 * gain
  ({ st with
      freq1L := freq1L
      freq1R := freq1R
      freq2L := freq2L
      freq2R := freq2R
      band2Mix := band2Mix
      delaySamples := delaySamples
      gain := gain
      gainRampProgress := gu.1
      delayBuf := del.1
      delayWritePos := del.2.1
      phase1L := advancePhase (tableSize : K) st.phase1L (freq1L * scale)
      phase1R := advancePhase (tableSize : K) st.phase1R (freq1R * scale)
      phase2L := if st.band2Enabled then
                   advancePhase (tableSize : K) st.phase2L (freq2L * scale)
                 else st.phase2L
      phase2R := if st.band2Enabled then
                   advancePhase (tableSize : K) st.phase2R (freq2R * scale)
                 else st.phase2R
      isoPhase1 := if st.isoEnabled then
                     advanceIsoPhase kpi sampleRate st.isoPhase1 beat1
                   else st.isoPhase1
      isoPhase2 := if st.isoEnabled ∧ st.band2Enabled then
                     advanceIsoPhase kpi sampleRate st.isoPhase2 beat2
                   else st.isoPhase2 },
   outL, outR)

/-- State of the delay stage after `n` samples, starting from buffer `buf0`
and write cursor `0`, with the smoothed delay length held constant at `d`
(the settled regime: `d` is a fixed point of the delay smoothing) and the
pre-delay right-channel stream `input`. -/
def delayRunSt (cap : ℕ) (d : K) (input : ℕ → K) (buf0 : ℕ → K) :
    ℕ → (ℕ → K) × ℕ
  | 0 => (buf0, 0)
  | n + 1 =>
      let s := delayRunSt cap d input buf0 n
      let r := delayStage cap s.1 s.2 d (input n)
      (r.1, r.2.1)

/-- Post-delay right-channel output at sample `n` in the settled regime. -/
def delayRunOut (cap : ℕ) (d : K) (input : ℕ → K) (buf0 : ℕ → K) (n : ℕ) : K :=
  let s := delayRunSt cap d input buf0 n
  (delayStage cap s.1 s.2 d (input n)).2.2

/-- Mutable fields of `NoiseProcessor` (noise worklet, lines 11–15). -/
structure NoiseState (K : Type) where
  gain : K
  targetGain : K
  smooth : K

/-- Initial `NoiseProcessor` state: `gain = 0`, `targetGain = 0`,
`smooth = 0.01`. -/
def noiseInit : NoiseState K where
  gain := 0
  targetGain := 0
  smooth := 1 / 100

/-- The noise worklet's `port.onmessage` (lines 17–21): a present `gain` field
is clamped into `[0,1]` and stored as the target, a present `smooth` field
replaces the smoothing time constant. -/
def noiseApplyMsg (st : NoiseState K) (g s : Option K) : NoiseState K :=
  { st with
    targetGain := match g with | some v => max 0 (min 1 v) | none => st.targetGain
    smooth := match s with | some v => v | none => st.smooth }

/-- The noise worklet's per-block smoothing coefficient
`1 - Math.exp(-5 / (sampleRate * Math.max(0.001, this.smooth)))` (line 30). -/
def noiseCoef (kexp : K → K) (sampleRate smooth : K) : K :=
  1 - kexp (-5 / (sampleRate * max (1 / 1000) smooth))

/-- One sample of `NoiseProcessor.process` (lines 32–36): smooth the gain, then
emit `(random*2 - 1) * gain` on each channel, where `rL`, `rR` are the two
`Math.random()` draws of this sample. -/
def noiseStep (coef : K) (st : NoiseState K) (rL rR : K) :
    NoiseState K × K × K :=
  let g := smoothStep coef st.targetGain st.gain
  ({ st with gain := g }, (rL * 2 - 1) * g, (rR * 2 - 1) * g)

/-! ## Theorems -/

/-- C2: whenever the second band is enabled and its smoothed mix weight `m` is
positive, each mixed channel is scaled by `1 / (1 + m)`; consequently, for
every `m ∈ [0,1]` and worst-case in-phase band samples both equal to `1.0`,
the mixed-and-normalized output magnitude never exceeds `1.0`. -/
theorem clip_prevention_normalization :
    (∀ m s1 s2 : ℚ, 0 < m →
        mixNormalize true m s1 s2 = (s1 + s2 * m) * (1 / (1 + m))) ∧
    (∀ m : ℚ, 0 ≤ m → m ≤ 1 → |mixNormalize true m 1 1| ≤ 1) := by
  constructor
  · intro m s1 s2 hm
    simp [mixNormalize, hm]
  · intro m hm0 hm1
    rcases eq_or_lt_of_le hm0 with h | h
    · simp [mixNormalize, ← h]
    · have h1 : (0 : ℚ) < 1 + m := by linarith
      have hval : mixNormalize true m 1 1 = 1 := by
        simp only [mixNormalize, true_and, if_pos h, one_mul, mul_one_div]
        rw [div_self (ne_of_gt h1)]
      rw [hval]
      norm_num

/-- Witness for C2 at the concrete mix weight `1/2`. -/
theorem clip_prevention_normalization_witness :
    |mixNormalize true ((1 : ℚ) / 2) 1 1| ≤ 1 :=
  clip_prevention_normalization.2 (1 / 2) (by norm_num) (by norm_num)

/-- C8: for every parameter message, every field absent from the message
leaves the corresponding engine state unchanged (sparse merge); in particular
a message carrying only a gain target and ramp duration alters no frequency
target, no band-2 mix target, no delay target and no enable flag. -/
theorem sparse_merge (sr : ℚ) (st : EngineState ℚ) (d : ParamMsg ℚ) :
    (d.freq1L = none → (applyMessage sr st d).targetFreq1L = st.targetFreq1L) ∧
    (d.freq1R = none → (applyMessage sr st d).targetFreq1R = st.targetFreq1R) ∧
    (d.freq2L = none → (applyMessage sr st d).targetFreq2L = st.targetFreq2L) ∧
    (d.freq2R = none → (applyMessage sr st d).targetFreq2R = st.targetFreq2R) ∧
    (d.band2Enabled = none → (applyMessage sr st d).band2Enabled = st.band2Enabled) ∧
    (d.band2Mix = none → (applyMessage sr st d).targetBand2Mix = st.targetBand2Mix) ∧
    (d.isoEnabled = none → (applyMessage sr st d).isoEnabled = st.isoEnabled) ∧
    (d.interleaveMs = none →
        (applyMessage sr st d).targetInterleaveMs = st.targetInterleaveMs ∧
        (applyMessage sr st d).targetDelaySamples = st.targetDelaySamples) ∧
    (d.freqSmooth = none → (applyMessage sr st d).freqSmooth = st.freqSmooth) ∧
    (d.gain = none →
        (applyMessage sr st d).gainStart = st.gainStart ∧
        (applyMessage sr st d).gainEnd = st.gainEnd ∧
        (applyMessage sr st d).gainRampSamples = st.gainRampSamples ∧
        (applyMessage sr st d).gainRampProgress = st.gainRampProgress) ∧
    (∀ g gs : ℚ,
        (applyMessage sr st (gainOnlyMsg g gs)).targetFreq1L = st.targetFreq1L ∧
        (applyMessage sr st (gainOnlyMsg g gs)).targetFreq1R = st.targetFreq1R ∧
        (applyMessage sr st (gainOnlyMsg g gs)).targetFreq2L = st.targetFreq2L ∧
        (applyMessage sr st (gainOnlyMsg g gs)).targetFreq2R = st.targetFreq2R ∧
        (applyMessage sr st (gainOnlyMsg g gs)).targetBand2Mix = st.targetBand2Mix ∧
        (applyMessage sr st (gainOnlyMsg g gs)).targetDelaySamples = st.targetDelaySamples ∧
        (applyMessage sr st (gainOnlyMsg g gs)).targetInterleaveMs = st.targetInterleaveMs ∧
        (applyMessage sr st (gainOnlyMsg g gs)).band2Enabled = st.band2Enabled ∧
        (applyMessage sr st (gainOnlyMsg g gs)).isoEnabled = st.isoEnabled ∧
        (applyMessage sr st (gainOnlyMsg g gs)).freqSmooth = st.freqSmooth) := by
  refine ⟨fun h => by simp [applyMessage, h],
          fun h => by simp [applyMessage, h],
          fun h => by simp [applyMessage, h],
          fun h => by simp [applyMessage, h],
          fun h => by simp [applyMessage, h],
          fun h => by simp [applyMessage, h],
          fun h => by simp [applyMessage, h],
          fun h => by simp [applyMessage, h],
          fun h => by simp [applyMessage, h],
          fun h => by simp [applyMessage, h],
          fun g gs => ⟨rfl, rfl, rfl, rfl, rfl, rfl, rfl, rfl, rfl, rfl⟩⟩

/-- Witness for C8: a gain-only message on the freshly constructed engine
leaves the band-1 left frequency target unchanged. -/
theorem sparse_merge_witness :
    (applyMessage (1000 : ℚ) (initState 1000) (gainOnlyMsg (1 / 2) 2)).targetFreq1L
      = (initState (1000 : ℚ)).targetFreq1L :=
  (sparse_merge 1000 (initState 1000) (gainOnlyMsg (1 / 2) 2)).1 rfl

/-- C10: while `band2Enabled` is false, a render sample leaves band 2's
oscillator phases and its isochronic envelope phase unchanged, yet still
advances band 2's smoothed frequencies toward their targets by the usual
exponential smoothing step (which never moves a value past its target while
the coefficient lies in `[0,1]`). -/
theorem band2_disabled_freeze (sampleRate fS sS : ℚ) (table : ℤ → ℚ)
    (kcos : ℚ → ℚ) (kpi : ℚ) (st : EngineState ℚ)
    (h : st.band2Enabled = false) :
    (processSample sampleRate fS sS table kcos kpi st).1.phase2L = st.phase2L ∧
    (processSample sampleRate fS sS table kcos kpi st).1.phase2R = st.phase2R ∧
    (processSample sampleRate fS sS table kcos kpi st).1.isoPhase2 = st.isoPhase2 ∧
    (processSample sampleRate fS sS table kcos kpi st).1.freq2L
      = smoothStep fS st.targetFreq2L st.freq2L ∧
    (processSample sampleRate fS sS table kcos kpi st).1.freq2R
      = smoothStep fS st.targetFreq2R st.freq2R ∧
    (0 ≤ fS → fS ≤ 1 →
      |smoothStep fS st.targetFreq2L st.freq2L - st.targetFreq2L|
        ≤ |st.freq2L - st.targetFreq2L|) := by
  refine ⟨by simp [processSample, h], by simp [processSample, h],
          by simp [processSample, h], rfl, rfl, ?_⟩
  intro h0 h1
  have hkey : smoothStep fS st.targetFreq2L st.freq2L - st.targetFreq2L
      = (st.freq2L - st.targetFreq2L) * (1 - fS) := by
    simp [smoothStep]; ring
  rw [hkey, abs_mul]
  have h2 : |1 - fS| = 1 - fS := abs_of_nonneg (by linarith)
  rw [h2]
  nlinarith [abs_nonneg (st.freq2L - st.targetFreq2L)]

/-- Witness for C10 on the freshly constructed engine (band 2 disabled) with a
moved band-2 frequency target. -/
theorem band2_disabled_freeze_witness :
    (processSample 1000 (1 / 4) 0 (fun _ => 0) id 0
        ({ initState (1000 : ℚ) with targetFreq2L := 100 })).1.phase2L
      = ({ initState (1000 : ℚ) with targetFreq2L := 100 }).phase2L ∧
    (processSample 1000 (1 / 4) 0 (fun _ => 0) id 0
        ({ initState (1000 : ℚ) with targetFreq2L := 100 })).1.freq2L
      = smoothStep (1 / 4) ({ initState (1000 : ℚ) with targetFreq2L := 100 }).targetFreq2L
          ({ initState (1000 : ℚ) with targetFreq2L := 100 }).freq2L := by
  have h := band2_disabled_freeze 1000 (1 / 4) 0 (fun _ => 0) id 0
    ({ initState (1000 : ℚ) with targetFreq2L := 100 }) rfl
  exact ⟨h.1, h.2.2.2.1⟩

/-- C9: the noise generator's per-block coefficient is literally the same
fast-exponential law as the binaural engine's frequency smoothing; each sample
the gain is smoothed by `gain += (target - gain) * coef` and each channel
emits an independent `random*2 - 1` value (hence in `[-1, 1]` for a random
draw in `[0, 1)`) multiplied by the current gain; a received gain target is
clamped into `[0,1]`. -/
theorem noise_generator_model :
    (∀ sr s : ℝ, noiseCoef Real.exp sr s = fSmoothCoef Real.exp sr s) ∧
    (∀ (coef : ℚ) (st : NoiseState ℚ) (rL rR : ℚ),
        (noiseStep coef st rL rR).2.1
            = (rL * 2 - 1) * smoothStep coef st.targetGain st.gain ∧
        (noiseStep coef st rL rR).2.2
            = (rR * 2 - 1) * smoothStep coef st.targetGain st.gain ∧
        (noiseStep coef st rL rR).1.gain = smoothStep coef st.targetGain st.gain ∧
        (noiseStep coef st rL rR).1.targetGain = st.targetGain) ∧
    (∀ r : ℚ, 0 ≤ r → r < 1 → -1 ≤ r * 2 - 1 ∧ r * 2 - 1 ≤ 1) ∧
    (∀ (st : NoiseState ℚ) (g : ℚ) (s : Option ℚ),
        (noiseApplyMsg st (some g) s).targetGain = max 0 (min 1 g)) := by
  refine ⟨fun sr s => rfl,
          fun coef st rL rR => ⟨rfl, rfl, rfl, rfl⟩, ?_,
          fun st g s => rfl⟩
  intro r h0 h1
  constructor <;> linarith

/-- Witness for C9 at the concrete random draw `1/2`. -/
theorem noise_generator_model_witness :
    -1 ≤ (1 / 2 : ℚ) * 2 - 1 ∧ (1 / 2 : ℚ) * 2 - 1 ≤ 1 :=
  noise_generator_model.2.2.1 (1 / 2) (by norm_num) (by norm_num)

/-- C3 is violated by the code: starting from the freshly constructed engine
(`gain = 0`) at 1000 Hz sample rate, the message `{gain: 1, gainSmooth:
0.0005}` yields `gainRampSamples = 0.5`, and the very first rendered sample
computes `t = 1/0.5 = 2`, multiplying the output by a gain of `2 ∉ [0,1]`. -/
theorem gain_leaves_unit_interval_eval :
    (processSample 1000 0 0 (fun _ => 0) id 0
        (applyMessage 1000 (initState (1000 : ℚ)) (gainOnlyMsg 1 (1 / 2000)))).1.gain
      = 2 ∧
    ¬ ((processSample 1000 0 0 (fun _ => 0) id 0
        (applyMessage 1000 (initState (1000 : ℚ)) (gainOnlyMsg 1 (1 / 2000)))).1.gain
      ≤ 1) := by
  have h : (processSample 1000 0 0 (fun _ => 0) id 0
      (applyMessage 1000 (initState (1000 : ℚ)) (gainOnlyMsg 1 (1 / 2000)))).1.gain
      = 2 := by
    norm_num [processSample, applyMessage, initState, gainOnlyMsg, gainUpdate,
      smoothStep, mixNormalize, delayStage, tableLookup, isochronicEnvelope,
      jsTrunc, advancePhase, advanceIsoPhase, tableSize]
  rw [h]
  norm_num

/-- C7 is violated by the code: with a sub-sample ramp duration
(`duration_samples = 0.4 < 1`, start `0`, clamped target `1`) the first sample
does not snap to the target — it renders `t = 1/0.4 = 2.5`, a value outside
the segment between start and target — and only the second sample snaps to
the target. -/
theorem sub_sample_ramp_eval :
    (gainAfter (0 : ℚ) 1 (2 / 5) 1).2 = 5 / 2 ∧
    (gainAfter (0 : ℚ) 1 (2 / 5) 1).2 ≠ 1 ∧
    ¬ ((gainAfter (0 : ℚ) 1 (2 / 5) 1).2 ≤ 1) ∧
    (gainAfter (0 : ℚ) 1 (2 / 5) 2).2 = 1 := by
  have h1 : gainAfter (0 : ℚ) 1 (2 / 5) 1 = (1, 5 / 2) := by
    norm_num [gainAfter, gainUpdate]
  have h2 : gainAfter (0 : ℚ) 1 (2 / 5) 2 = (1, 1) := by
    have : gainAfter (0 : ℚ) 1 (2 / 5) 2
        = gainUpdate 0 1 (2 / 5) (gainAfter (0 : ℚ) 1 (2 / 5) 1).1 := rfl
    rw [this, h1]
    norm_num [gainUpdate]
  rw [h1, h2]
  norm_num

/-- Counterexample to C1 as stated: with start `0`, clamped target `1` and the
non-integer ramp duration `duration_samples = 1.5`, after two samples the ramp
progress is `2` and the code renders `4/3`, not the claimed
`start + (end - start) * min 1 (2 / 1.5) = 1`; in particular the rendered gain
overshoots past the end value. -/
theorem gain_ramp_min_formula_cex :
    (gainAfter (0 : ℚ) 1 (3 / 2) 2).2 = 4 / 3 ∧
    (gainAfter (0 : ℚ) 1 (3 / 2) 2).2 ≠ 0 + (1 - 0) * min 1 ((2 : ℚ) / (3 / 2)) ∧
    1 < (gainAfter (0 : ℚ) 1 (3 / 2) 2).2 := by
  have h1 : gainAfter (0 : ℚ) 1 (3 / 2) 1 = (1, 2 / 3) := by
    norm_num [gainAfter, gainUpdate]
  have h2 : gainAfter (0 : ℚ) 1 (3 / 2) 2 = (2, 4 / 3) := by
    have : gainAfter (0 : ℚ) 1 (3 / 2) 2
        = gainUpdate 0 1 (3 / 2) (gainAfter (0 : ℚ) 1 (3 / 2) 1).1 := rfl
    rw [this, h1]
    norm_num [gainUpdate]
  rw [h2]
  norm_num [min_def]

/-- C4: if before a sample the phase lies in `[0, tableSize)` and the smoothed
frequency is nonnegative and below the sample rate, then the per-sample
increment is in `[0, tableSize)`, the advance-then-single-conditional-subtract
step keeps the phase in `[0, tableSize)` (and is a subtraction of the phase
plus increment, never a reset to `0`), and the wavetable lookup indices
`⌊phase⌋` and `⌊phase⌋ + 1` both lie inside the table of `tableSize + 1`
entries (indices `0 … tableSize`). -/
theorem phase_wraparound_bounds (sr freq phase : ℚ)
    (hsr : 0 < sr) (hf0 : 0 ≤ freq) (hfs : freq < sr)
    (hp0 : 0 ≤ phase) (hpN : phase < (tableSize : ℚ)) :
    (0 ≤ freq * ((tableSize : ℚ) / sr) ∧
     freq * ((tableSize : ℚ) / sr) < (tableSize : ℚ)) ∧
    (0 ≤ advancePhase (tableSize : ℚ) phase (freq * ((tableSize : ℚ) / sr)) ∧
     advancePhase (tableSize : ℚ) phase (freq * ((tableSize : ℚ) / sr))
       < (tableSize : ℚ)) ∧
    (advancePhase (tableSize : ℚ) phase (freq * ((tableSize : ℚ) / sr))
        = phase + freq * ((tableSize : ℚ) / sr) ∨
     advancePhase (tableSize : ℚ) phase (freq * ((tableSize : ℚ) / sr))
        = phase + freq * ((tableSize : ℚ) / sr) - (tableSize : ℚ)) ∧
    (0 ≤ jsTrunc phase ∧ jsTrunc phase + 1 ≤ (tableSize : ℤ)) := by
  have hN : (0 : ℚ) < (tableSize : ℚ) := by norm_num [tableSize]
  have hscale : (0 : ℚ) < (tableSize : ℚ) / sr := div_pos hN hsr
  have hinc0 : 0 ≤ freq * ((tableSize : ℚ) / sr) := mul_nonneg hf0 (le_of_lt hscale)
  have hincN : freq * ((tableSize : ℚ) / sr) < (tableSize : ℚ) := by
    have h1 : freq * ((tableSize : ℚ) / sr) < sr * ((tableSize : ℚ) / sr) :=
      mul_lt_mul_of_pos_right hfs hscale
    have h2 : sr * ((tableSize : ℚ) / sr) = (tableSize : ℚ) := by
      field_simp
    linarith
  refine ⟨⟨hinc0, hincN⟩, ?_, ?_, ?_⟩
  · simp only [advancePhase]
    split_ifs with h
    · constructor <;> linarith
    · constructor <;> linarith
  · simp only [advancePhase]
    split_ifs with h
    · right; ring
    · left; ring
  · rw [jsTrunc, if_pos hp0]
    constructor
    · exact Int.floor_nonneg.mpr hp0
    · have : ⌊phase⌋ < (tableSize : ℤ) := by
        rw [Int.floor_lt]
        exact_mod_cast hpN
      omega

/-- Witness for C4 at sample rate `100`, frequency `50`, phase `4000`. -/
theorem phase_wraparound_bounds_witness :
    0 ≤ advancePhase ((tableSize : ℕ) : ℚ) 4000 (50 * ((tableSize : ℚ) / 100)) ∧
    advancePhase ((tableSize : ℕ) : ℚ) 4000 (50 * ((tableSize : ℚ) / 100))
      < (tableSize : ℚ) :=
  (phase_wraparound_bounds 100 50 4000 (by norm_num) (by norm_num) (by norm_num)
    (by norm_num) (by norm_num [tableSize])).2.1

/-- C1 (amended): on receipt of a gain message the engine captures
`start = current gain`, `end = target clamped into [0,1]` and resets the ramp
progress; the rendered gain at progress `k` is
`start + (end - start) * (k / duration_samples)` with no `min`-clamp on the
ratio.  For every integer `duration_samples = n ≥ 1` this makes the values at
`k = 0 … n` exactly linearly spaced between start and end, the gain equals
`end` exactly from progress `n` onward, and (for `start ≤ end`) the rendered
gain never overshoots past `end`. -/
theorem gain_ramp_integer_duration (s e : ℚ) (n : ℕ) (hn : 1 ≤ n) :
    (∀ k : ℕ, k ≤ n →
        gainAfter s e (n : ℚ) k = ((k : ℚ), s + (e - s) * ((k : ℚ) / (n : ℚ)))) ∧
    (∀ k : ℕ, n ≤ k → (gainAfter s e (n : ℚ) k).2 = e) ∧
    (∀ k : ℕ, s ≤ e → (gainAfter s e (n : ℚ) k).2 ≤ e) ∧
    (∀ (sr g gs : ℚ) (st : EngineState ℚ),
        (applyMessage sr st (gainOnlyMsg g gs)).gainStart = st.gain ∧
        (applyMessage sr st (gainOnlyMsg g gs)).gainEnd = max 0 (min 1 g) ∧
        (applyMessage sr st (gainOnlyMsg g gs)).gainRampProgress = 0) := by
  have hn0 : ((n : ℚ)) ≠ 0 := by
    exact_mod_cast Nat.pos_iff_ne_zero.mp hn
  have hramp : ∀ k : ℕ, k ≤ n →
      gainAfter s e (n : ℚ) k = ((k : ℚ), s + (e - s) * ((k : ℚ) / (n : ℚ))) := by
    intro k
    induction k with
    | zero =>
        intro _
        simp [gainAfter]
    | succ k ih =>
        intro hk
        have hk' : k ≤ n := Nat.le_of_succ_le hk
        have hkn : k < n := hk
        have hlt : (k : ℚ) < (n : ℚ) := by exact_mod_cast hkn
        have hstep : gainAfter s e (n : ℚ) (k + 1)
            = gainUpdate s e (n : ℚ) (gainAfter s e (n : ℚ) k).1 := rfl
        rw [hstep, ih hk']
        simp only [gainUpdate, if_pos hlt]
        rw [Prod.mk.injEq]
        constructor
        · push_cast; ring
        · push_cast; ring
  have hend : gainAfter s e (n : ℚ) n = ((n : ℚ), e) := by
    rw [hramp n le_rfl, div_self hn0]
    ring_nf
  have hpast : ∀ j : ℕ, gainAfter s e (n : ℚ) (n + j) = ((n : ℚ), e) := by
    intro j
    induction j with
    | zero => exact hend
    | succ j ih =>
        have hstep : gainAfter s e (n : ℚ) (n + (j + 1))
            = gainUpdate s e (n : ℚ) (gainAfter s e (n : ℚ) (n + j)).1 := rfl
        rw [hstep, ih]
        simp [gainUpdate]
  refine ⟨hramp, ?_, ?_, fun sr g gs st => ⟨rfl, rfl, rfl⟩⟩
  · intro k hk
    obtain ⟨j, rfl⟩ : ∃ j, k = n + j := ⟨k - n, by omega⟩
    rw [hpast j]
  · intro k hse
    rcases Nat.le_total k n with hk | hk
    · rw [hramp k hk]
      have h1 : (k : ℚ) / (n : ℚ) ≤ 1 := by
        rw [div_le_one (by positivity)]
        exact_mod_cast hk
      have h2 : 0 ≤ e - s := by linarith
      have h3 : (e - s) * ((k : ℚ) / (n : ℚ)) ≤ (e - s) * 1 :=
        mul_le_mul_of_nonneg_left h1 h2
      simp only
      linarith
    · obtain ⟨j, rfl⟩ : ∃ j, k = n + j := ⟨k - n, by omega⟩
      rw [hpast j]

/-- Witness for C1's amended statement at start `0`, end `1`, integer ramp
duration `2`, after one sample. -/
theorem gain_ramp_integer_duration_witness :
    gainAfter (0 : ℚ) 1 ((2 : ℕ) : ℚ) 1
      = (((1 : ℕ) : ℚ), 0 + (1 - 0) * (((1 : ℕ) : ℚ) / ((2 : ℕ) : ℚ))) :=
  (gain_ramp_integer_duration 0 1 2 (by norm_num)).1 1 (by norm_num)

/-- Closed form of the exponential smoothing recurrence: after `n` samples the
remaining gap to the target is the initial gap scaled by `(1 - coef)^n`. -/
theorem smoothN_closed {K : Type} [LinearOrderedField K] (coef target : K)
    (n : ℕ) (v : K) :
    smoothN coef target n v = target - (1 - coef) ^ n * (target - v) := by
  induction n generalizing v with
  | zero => simp [smoothN]
  | succ n ih =>
      rw [smoothN, ih, smoothStep, pow_succ]
      ring

/-- `Real.exp 1 ^ 5` dominates `100`; used to bound the smoothing tail. -/
theorem exp_five_ge_100 : (100 : ℝ) ≤ Real.exp 5 := by
  have h1 : (2.7182818283 : ℝ) ^ 5 ≤ Real.exp 1 ^ 5 :=
    pow_le_pow_left (by norm_num) (le_of_lt Real.exp_one_gt_d9) 5
  have h2 : Real.exp 1 ^ 5 = Real.exp 5 := by
    rw [← Real.exp_nat_mul]
    norm_num
  nlinarith

/-- C5 (amended): the per-sample frequency smoothing coefficient is
`1 − exp(−5 / (sample_rate × max(0.001, smoothing_seconds)))`, each smoothed
value is updated per sample as `value += (target − value) × coef`, and for a
constant target held for `n` samples with `n ≥ 5 × max(0.001, smoothing_seconds)
× sample_rate` (i.e. held for at least five *effective* time constants, the
requested one floored at ε = 0.001 s) the smoothed value is within 1% of the
initial gap of the target. -/
theorem smoothing_convergence_eps (sr s target v : ℝ) (n : ℕ)
    (hsr : 0 < sr) (hn : 5 * max (1 / 1000) s * sr ≤ (n : ℝ)) :
    |smoothN (fSmoothCoef Real.exp sr s) target n v - target|
      ≤ 1 / 100 * |v - target| := by
  set m : ℝ := max (1 / 1000) s with hm
  have hm0 : (0 : ℝ) < m := lt_of_lt_of_le (by norm_num) (le_max_left _ _)
  have hsm : (0 : ℝ) < sr * m := mul_pos hsr hm0
  have hb : (1 : ℝ) - fSmoothCoef Real.exp sr s = Real.exp (-5 / (sr * m)) := by
    simp [fSmoothCoef, hm]
  rw [smoothN_closed, hb]
  have habs : |target - Real.exp (-5 / (sr * m)) ^ n * (target - v) - target|
      = Real.exp (-5 / (sr * m)) ^ n * |v - target| := by
    have h1 : target - Real.exp (-5 / (sr * m)) ^ n * (target - v) - target
        = Real.exp (-5 / (sr * m)) ^ n * (v - target) := by ring
    rw [h1, abs_mul, abs_of_nonneg (pow_nonneg (le_of_lt (Real.exp_pos _)) n)]
  rw [habs]
  have hpow : Real.exp (-5 / (sr * m)) ^ n = Real.exp ((n : ℝ) * (-5 / (sr * m))) :=
    (Real.exp_nat_mul _ n).symm
  have harg : (n : ℝ) * (-5 / (sr * m)) ≤ -5 := by
    have h25 : sr * m ≤ (n : ℝ) := by nlinarith
    rw [show (n : ℝ) * (-5 / (sr * m)) = -((n : ℝ) * 5 / (sr * m)) by ring,
      neg_le_neg_iff, le_div_iff hsm]
    nlinarith
  have hexp : Real.exp ((n : ℝ) * (-5 / (sr * m))) ≤ 1 / 100 := by
    have h1 : Real.exp ((n : ℝ) * (-5 / (sr * m))) ≤ Real.exp (-5) :=
      Real.exp_le_exp.mpr harg
    have h2 : Real.exp (-5) ≤ 1 / 100 := by
      rw [Real.exp_neg]
      rw [inv_le (Real.exp_pos _) (by norm_num)]
      calc (1 / 100 : ℝ)⁻¹ = 100 := by norm_num
        _ ≤ Real.exp 5 := exp_five_ge_100
    linarith
  rw [hpow]
  exact mul_le_mul_of_nonneg_right hexp (abs_nonneg _)

/-- Witness for C5's amended statement: sample rate 1000 Hz, smoothing time
1 s, target 1 held for 5000 samples starting from 0. -/
theorem smoothing_convergence_eps_witness :
    |smoothN (fSmoothCoef Real.exp 1000 1) 1 5000 0 - 1|
      ≤ 1 / 100 * |(0 : ℝ) - 1| := by
  have h : (5 * max (1 / 1000 : ℝ) 1 * 1000 ≤ ((5000 : ℕ) : ℝ)) := by
    rw [max_eq_right (by norm_num : (1 / 1000 : ℝ) ≤ 1)]
    norm_num
  exact smoothing_convergence_eps 1000 1 1 0 5000 (by norm_num) h

/-- Counterexample to C5 as stated: at sample rate 48000 Hz with requested
smoothing time 0.0001 s (below the ε = 0.001 floor), a constant target held
for exactly `5 × smoothing_seconds` (24 samples = 0.0005 s) leaves the
smoothed value `exp(−5/2) ≈ 8.2%` of the initial gap away from the target —
not within 1%. -/
theorem smoothing_eps_floor_cex :
    5 * (1 / 10000 : ℝ) * 48000 ≤ ((24 : ℕ) : ℝ) ∧
    1 / 100 * |(0 : ℝ) - 1|
      < |smoothN (fSmoothCoef Real.exp 48000 (1 / 10000)) 1 24 (0 : ℝ) - 1| := by
  constructor
  · norm_num
  · have hcoef : (1 : ℝ) - fSmoothCoef Real.exp 48000 (1 / 10000)
        = Real.exp (-5 / 48) := by
      rw [fSmoothCoef, max_eq_left (by norm_num : (1 / 10000 : ℝ) ≤ 1 / 1000)]
      norm_num
    rw [smoothN_closed, hcoef]
    have hpow : Real.exp (-5 / 48) ^ 24 = Real.exp (-5 / 2) := by
      rw [← Real.exp_nat_mul]
      norm_num
    rw [hpow]
    have habs : |1 - Real.exp (-5 / 2) * (1 - 0) - 1| = Real.exp (-5 / 2) := by
      rw [(by ring : (1 : ℝ) - Real.exp (-5 / 2) * (1 - 0) - 1 = -Real.exp (-5 / 2)),
        abs_neg, abs_of_nonneg (le_of_lt (Real.exp_pos _))]
    rw [habs]
    have hlt : Real.exp (5 / 2) < 100 := by
      have h1 : Real.exp (5 / 2) ≤ Real.exp 3 := Real.exp_le_exp.mpr (by norm_num)
      have h2 : Real.exp 3 = Real.exp 1 ^ 3 := by
        rw [← Real.exp_nat_mul]; norm_num
      have h3 : Real.exp 1 ^ 3 < 2.7182818286 ^ 3 :=
        pow_lt_pow_left Real.exp_one_lt_d9 (le_of_lt (Real.exp_pos _)) (by norm_num)
      nlinarith
    have hpos : (0 : ℝ) < Real.exp (5 / 2) := Real.exp_pos _
    have hgoal : (100 : ℝ)⁻¹ < Real.exp (-5 / 2) := by
      rw [show (-5 / 2 : ℝ) = -(5 / 2) by norm_num, Real.exp_neg]
      exact inv_lt_inv_of_lt hpos hlt
    calc 1 / 100 * |(0 : ℝ) - 1| = (100 : ℝ)⁻¹ := by norm_num
      _ < Real.exp (-5 / 2) := hgoal

/-- In the settled regime the write cursor advances one slot per sample,
wrapping at the capacity: after `n` samples it sits at `n % cap`. -/
theorem delayRunSt_writePos (cap : ℕ) (d : ℚ) (input buf0 : ℕ → ℚ)
    (hcap : 1 < cap) (hd : 0 < d) :
    ∀ n, (delayRunSt cap d input buf0 n).2 = n % cap := by
  intro n
  induction n with
  | zero => simp [delayRunSt]
  | succ n ih =>
      rw [delayRunSt]
      simp only [delayStage, if_pos hd]
      rw [ih, Nat.mod_add_mod]

/-- In the settled regime the buffer retains the most recent `cap` writes:
after `n` samples, slot `j % cap` still holds `input j` for every `j < n`
with `n ≤ j + cap`. -/
theorem delayRunSt_buf (cap : ℕ) (d : ℚ) (input buf0 : ℕ → ℚ)
    (hcap : 1 < cap) (hd : 0 < d) :
    ∀ n j, j < n → n ≤ j + cap →
      (delayRunSt cap d input buf0 n).1 (j % cap) = input j := by
  intro n
  induction n with
  | zero => intro j hj _; omega
  | succ n ih =>
      intro j hj hjc
      rw [delayRunSt]
      simp only [delayStage, if_pos hd]
      rw [delayRunSt_writePos cap d input buf0 hcap hd n]
      by_cases hjn : j = n
      · subst hjn
        simp
      · have hjlt : j < n := lt_of_le_of_ne (Nat.lt_succ_iff.mp hj) hjn
        have hne : j % cap ≠ n % cap := by
          intro he
          have hdvd : cap ∣ n - j := (Nat.modEq_iff_dvd' (le_of_lt hjlt)).mp he
          have hle : cap ≤ n - j := Nat.le_of_dvd (by omega) hdvd
          omega
        simp only [if_neg hne]
        exact ih j hjlt (by omega)

/-- The wrapped read position computed by the delay stage during sample `n`
(write cursor `n % cap`, integer delay `d`) is `(n - d) % cap`. -/
theorem delay_readPos (cap d n : ℕ) (hd1 : 1 ≤ d) (hdc : d < cap) (hdn : d ≤ n) :
    (if ((n % cap : ℕ) : ℤ) - (d : ℤ) < 0
      then ((n % cap : ℕ) : ℤ) - (d : ℤ) + (cap : ℤ)
      else ((n % cap : ℕ) : ℤ) - (d : ℤ)).toNat = (n - d) % cap := by
  have hcap : 0 < cap := by omega
  have hwlt : n % cap < cap := Nat.mod_lt _ hcap
  obtain ⟨q, hq⟩ : ∃ q, n = cap * q + n % cap := ⟨n / cap, by
    rw [Nat.div_add_mod]⟩
  by_cases hcase : d ≤ n % cap
  · have hmod : (n - d) % cap = n % cap - d := by
      have h1 : n - d = cap * q + (n % cap - d) := by
        have := hq
        generalize cap * q = t at *
        omega
      rw [h1, Nat.mul_add_mod, Nat.mod_eq_of_lt (by omega)]
    rw [hmod, if_neg (by omega)]
    omega
  · push_neg at hcase
    have hq1 : 1 ≤ q := by
      rcases Nat.eq_zero_or_pos q with h0 | h1
      · subst h0
        simp at hq
        omega
      · exact h1
    have hmod : (n - d) % cap = cap + n % cap - d := by
      have h1 : n - d = cap * (q - 1) + (cap + n % cap - d) := by
        have h2 : cap * q = cap * (q - 1) + cap := by
          rcases q with _ | q'
          · omega
          · simp [Nat.mul_succ]
        rw [h2] at hq
        generalize cap * (q - 1) = t at *
        omega
      rw [h1, Nat.mul_add_mod, Nat.mod_eq_of_lt (by omega)]
    rw [hmod, if_pos (by omega)]
    omega

/-- C6: with the smoothed delay settled at an integer `d` samples
(`1 ≤ d < capacity`), the right-channel output at sample `n ≥ d` equals the
pre-delay right-channel value at sample `n − d` (ring-buffer wraparound
included); and the left-channel output of a render sample does not depend on
the delay-line state at all. -/
theorem delay_settled_correctness :
    (∀ (cap d : ℕ) (input buf0 : ℕ → ℚ) (n : ℕ),
        1 ≤ d → d < cap → d ≤ n →
        delayRunOut cap (d : ℚ) input buf0 n = input (n - d)) ∧
    (∀ (sampleRate fS sS : ℚ) (table : ℤ → ℚ) (kcos : ℚ → ℚ) (kpi : ℚ)
        (st : EngineState ℚ) (buf : ℕ → ℚ) (w : ℕ) (ds : ℚ),
        (processSample sampleRate fS sS table kcos kpi
            { st with delayBuf := buf, delayWritePos := w, delaySamples := ds }).2.1
          = (processSample sampleRate fS sS table kcos kpi st).2.1) := by
  constructor
  · intro cap d input buf0 n hd1 hdc hdn
    have hcap : 1 < cap := by omega
    have hd : (0 : ℚ) < (d : ℚ) := by exact_mod_cast (by omega : 0 < d)
    rw [delayRunOut]
    simp only [delayStage, if_pos hd]
    rw [delayRunSt_writePos cap _ input buf0 hcap hd n, Int.floor_natCast]
    rw [delay_readPos cap d n hd1 hdc hdn]
    have hne : (n - d) % cap ≠ n % cap := by
      intro he
      have hdvd : cap ∣ n - (n - d) := (Nat.modEq_iff_dvd' (by omega)).mp he
      have hnd : n - (n - d) = d := by omega
      rw [hnd] at hdvd
      have := Nat.le_of_dvd (by omega) hdvd
      omega
    simp only [if_neg hne]
    exact delayRunSt_buf cap _ input buf0 hcap hd n (n - d) (by omega) (by omega)
  · intro sampleRate fS sS table kcos kpi st buf w ds
    rfl

/-- Witness for C6: capacity 3, delay 1 sample, ramp input `i ↦ i + 1`; the
output at sample 4 is the input of sample 3. -/
theorem delay_settled_correctness_witness :
    delayRunOut 3 ((1 : ℕ) : ℚ) (fun i => (i : ℚ) + 1) (fun _ => 0) 4
      = ((4 - 1 : ℕ) : ℚ) + 1 :=
  delay_settled_correctness.1 3 1 (fun i => (i : ℚ) + 1) (fun _ => 0) 4
    (by norm_num) (by norm_num) (by norm_num)

end SpeedWashing
